import Mathlib

/-!
Shallow embedding of the transactional pool engine of the zfs object agent
(source files: src/cmd/zfs_object_agent/src/pool.rs and
src/cmd/zfs_object_agent/src/block_based_log.rs).

Identifiers (PoolGUID, TXG, ObjectID, BlockID, ChunkID, LogOffset) are opaque
u64 newtypes in the source; they are modelled as Nat.  Byte buffers are
modelled as List Nat.  Rust HashMap<BlockID, ByteBuf> is modelled as an
association list List (Nat x List Nat); the HashMap representation invariant
(no duplicate keys) appears as the NodupKeys hypothesis where a proof needs
it.  A Rust assertion failure (assert!, unwrap) aborts the process; fallible
code is therefore modelled with Option, where none means the code panicked.
-/

/-- Byte buffer (Rust ByteBuf). -/
abbrev Bytes := List Nat

/-- Association-list model of HashMap BlockID to ByteBuf. -/
abbrev BlockMap := List (Nat × Bytes)

/-- Lookup of a key in the block map (HashMap::get). -/
def lookupKey : BlockMap → Nat → Option Bytes
  | [], _ => none
  | (k', v) :: t, k => if k' = k then some v else lookupKey t k

/-- Removal of a key from the block map (HashMap::remove). -/
def removeKey : BlockMap → Nat → BlockMap
  | [], _ => []
  | (k', v) :: t, k => if k' = k then removeKey t k else (k', v) :: removeKey t k

/-- Insertion into the block map (HashMap::insert). -/
def insertKey (m : BlockMap) (k : Nat) (v : Bytes) : BlockMap :=
  (k, v) :: removeKey m k

/-- The HashMap representation invariant: keys are distinct. -/
def NodupKeys (m : BlockMap) : Prop := (m.map Prod.fst).Nodup

instance (m : BlockMap) : Decidable (NodupKeys m) := by
  unfold NodupKeys
  infer_instance

/-- Sum of the lengths of all values of the block map
(blocks.values().map(len).sum() in DataObjectPhys::verify). -/
def blocksSum (m : BlockMap) : Nat := (m.map (fun p => p.2.length)).sum

/-- DataObjectPhys (pool.rs lines 83-99): a packed data object.  blocks maps
BlockID to block bytes; blocks_size caches the byte total. -/
structure DataObjectPhys where
  guid : Nat
  object : Nat
  blocks_size : Nat
  min_block : Nat
  next_block : Nat
  min_txg : Nat
  max_txg : Nat
  blocks : BlockMap
deriving Repr, DecidableEq

/-- DataObjectPhys::verify (pool.rs lines 220-231): blocks_size equals the sum
of the value lengths, min_txg is at most max_txg, min_block is at most
next_block, and (when the map is non-empty) min_block is at most every key and
every key is below next_block.  The min/max form of the source over a
non-empty map is stated as the equivalent bounded universal. -/
def DataObjectPhys.verifyOk (d : DataObjectPhys) : Prop :=
  d.blocks_size = blocksSum d.blocks ∧
  d.min_txg ≤ d.max_txg ∧
  d.min_block ≤ d.next_block ∧
  ∀ p ∈ d.blocks, d.min_block ≤ p.1 ∧ p.1 < d.next_block

instance (d : DataObjectPhys) : Decidable d.verifyOk := by
  unfold DataObjectPhys.verifyOk
  infer_instance

/-- PendingObjectState::new_pending (pool.rs lines 354-368): the fresh empty
pending object opened at a given next_block for a txg. -/
def new_pending (guid object next_block txg : Nat) : DataObjectPhys :=
  { guid := guid
    object := object
    min_block := next_block
    next_block := next_block
    min_txg := txg
    max_txg := txg
    blocks_size := 0
    blocks := [] }

/-- One iteration of the drain loop of Pool::write_unordered_to_pending_object
(pool.rs lines 1084-1094): move the buffered write for the current next_block
into the pending object and advance next_block. -/
def write_unordered_step (phys : DataObjectPhys) (buf : Bytes) : DataObjectPhys :=
  { phys with
    blocks_size := phys.blocks_size + buf.length
    blocks := insertKey phys.blocks phys.next_block buf
    next_block := phys.next_block + 1 }

/-- Body of the task spawned by Pool::do_overwrite_impl (pool.rs lines
1046-1069), acting on the fetched object: the assertions (object written this
txg, block present, equal length) become guards returning none (= panic);
on success only the bytes of block id change. -/
def do_overwrite_task (txg id : Nat) (data : Bytes) (obj_phys : DataObjectPhys) :
    Option DataObjectPhys :=
  if obj_phys.min_txg = txg ∧ obj_phys.max_txg = txg then
    match lookupKey obj_phys.blocks id with
    | none => none
    | some removed =>
      if removed.length = data.length then
        some { obj_phys with blocks := insertKey (removeKey obj_phys.blocks id) id data }
      else none
  else none

/-- PendingFreesLogEntry (pool.rs lines 128-133): a free that has not yet been
applied to the containing data object. -/
structure PendingFreesLogEntry where
  block : Nat
  size : Nat
deriving Repr, DecidableEq

/-- One iteration of the frees loop of reclaim_frees_object (pool.rs lines
1363-1376): remove a freed block if present (absence is tolerated), assert its
size, and maintain blocks_size. -/
def remove_freed_block (obj_phys : DataObjectPhys) (pfle : PendingFreesLogEntry) :
    Option DataObjectPhys :=
  match lookupKey obj_phys.blocks pfle.block with
  | none => some obj_phys
  | some v =>
    if v.length = pfle.size then
      some { obj_phys with
              blocks := removeKey obj_phys.blocks pfle.block
              blocks_size := obj_phys.blocks_size - v.length }
    else none

/-- The per-block transfer of the reduce closure of reclaim_frees_object
(pool.rs lines 1404-1418): insert each block of b into a.  If the key already
exists the old and new bytes must agree (assert) and blocks_size is unchanged;
otherwise blocks_size grows by the block length. -/
def merge_blocks_into : DataObjectPhys → BlockMap → Option DataObjectPhys
  | a, [] => some a
  | a, (k, v) :: rest =>
    match lookupKey a.blocks k with
    | some old =>
      if old = v then merge_blocks_into { a with blocks := insertKey a.blocks k v } rest
      else none
    | none =>
      merge_blocks_into
        { a with blocks := insertKey a.blocks k v, blocks_size := a.blocks_size + v.length }
        rest

/-- The reduce closure of reclaim_frees_object (pool.rs lines 1383-1426):
consolidate object b into object a, widening the txg and block ranges and
transferring the blocks of b. -/
def reclaim_merge (a b : DataObjectPhys) : Option DataObjectPhys :=
  if a.guid = b.guid then
    merge_blocks_into
      { a with
        object := min a.object b.object
        min_txg := min a.min_txg b.min_txg
        max_txg := max a.max_txg b.max_txg
        min_block := min a.min_block b.min_block
        next_block := max a.next_block b.next_block }
      b.blocks
  else none

/-- DataObjectPhys::put / ::get both run verify() (pool.rs lines 248, 262),
which panics when the invariant fails; the transferred object is returned
unchanged otherwise. -/
def put_checked (d : DataObjectPhys) : Option DataObjectPhys :=
  if d.verifyOk then some d else none

/-- Concrete data object used by witness theorems. -/
def exObjA : DataObjectPhys :=
  { guid := 1, object := 2, blocks_size := 3, min_block := 5, next_block := 8
    min_txg := 3, max_txg := 3, blocks := [(5, [8, 9]), (6, [4])] }

/-- Concrete data object used by witness theorems (adjacent to exObjA). -/
def exObjB : DataObjectPhys :=
  { guid := 1, object := 4, blocks_size := 2, min_block := 8, next_block := 10
    min_txg := 3, max_txg := 4, blocks := [(8, [1, 2])] }

/-- PoolStatsPhys (pool.rs lines 73-80). -/
structure PoolStatsPhys where
  blocks_count : Nat
  blocks_bytes : Nat
  pending_frees_count : Nat
  pending_frees_bytes : Nat
  objects_count : Nat
deriving Repr, DecidableEq

/-- Pool::get_prop (pool.rs lines 570-584): map a property name to a stats
field; an unknown name panics (modelled as none). -/
def get_prop (stats : PoolStatsPhys) (name : String) : Option Nat :=
  match name with
  | "zoa_allocated" => some stats.pending_frees_bytes
  | "zoa_freeing" => some stats.pending_frees_bytes
  | "zoa_objects" => some stats.objects_count
  | _ => none

/-- FREE_HIGHWATER_PCT (pool.rs line 29; 10.0 in the source). -/
def FREE_HIGHWATER_PCT : Nat := 10

/-- FREE_MIN_BLOCKS (pool.rs line 33). -/
def FREE_MIN_BLOCKS : Nat := 1000

/-- The fields of PoolSyncingState that the early-return paths of
try_reclaim_frees read or could write. -/
structure ReclaimCheckState where
  reclaim_cb_busy : Bool
  stats : PoolStatsPhys
deriving Repr, DecidableEq

/-- The highwater threshold of try_reclaim_frees (pool.rs lines 1443-1444).
The source computes (blocks_count as f64 * FREE_HIGHWATER_PCT / 100.0) as u64;
the as-cast truncates, which for block counts well below 2^53 equals this Nat
floor division. -/
def reclaim_threshold (blocks_count : Nat) : Nat :=
  blocks_count * FREE_HIGHWATER_PCT / 100

/-- The decision of try_reclaim_frees (pool.rs lines 1436-1448): a pass starts
unless a reclaim is already in progress (reclaim_cb is some) or the pending
frees are below the highwater threshold or below FREE_MIN_BLOCKS. -/
def try_reclaim_starts (s : ReclaimCheckState) : Bool :=
  if s.reclaim_cb_busy then false
  else if s.stats.pending_frees_count < reclaim_threshold s.stats.blocks_count
      ∨ s.stats.pending_frees_count < FREE_MIN_BLOCKS then false
  else true

/-- try_reclaim_frees as a state transformer over the fields it touches before
spawning: the only mutation on the start path visible here is installing
reclaim_cb (pool.rs line 1467); on the early-return paths nothing changes. -/
def try_reclaim_frees (s : ReclaimCheckState) : ReclaimCheckState :=
  if try_reclaim_starts s then { s with reclaim_cb_busy := true } else s

/-- Concrete state below the reclaim threshold, for the C5 witness. -/
def exReclaimState : ReclaimCheckState :=
  { reclaim_cb_busy := false
    stats := { blocks_count := 100, blocks_bytes := 0, pending_frees_count := 5
               pending_frees_bytes := 0, objects_count := 1 } }

/-- Outcome of running a piece of Rust code: a value, or a process abort
(failed assert! / unwrap). -/
inductive RustOutcome (A : Type) where
  | ok (val : A)
  | panicked
deriving Repr, DecidableEq

/-- The txg lifecycle fields of PoolSyncingState. -/
structure TxgLifecycleState where
  last_txg : Nat
  syncing_txg : Option Nat
deriving Repr, DecidableEq

/-- Pool::begin_txg (pool.rs lines 798-816): assert!(syncing_txg.is_none())
and assert_gt!(txg, last_txg) abort the process when violated (the source
carries the comment XXX change this to return an error to the client); on
success the txg is opened.  The pending-object initialization is outside this
reduced state. -/
def begin_txg (st : TxgLifecycleState) (txg : Nat) : RustOutcome TxgLifecycleState :=
  if st.syncing_txg.isSome then RustOutcome.panicked
  else if ¬ st.last_txg < txg then RustOutcome.panicked
  else RustOutcome.ok { st with syncing_txg := some txg }

/-- The entry guard of Pool::write_block (pool.rs lines 1108-1110):
assert!(syncing_state.syncing_txg.is_some()) aborts the process when no txg is
open (the source carries the comment XXX change to return error). -/
def write_block_guard (st : TxgLifecycleState) : RustOutcome Unit :=
  if st.syncing_txg.isSome then RustOutcome.ok () else RustOutcome.panicked

/-- The loop of Pool::check_pending_flushes (pool.rs lines 915-921) with
explicit fuel.  Each iteration re-reads the smallest element of the
pending_flushes set; when it is below next_block it is removed (and do_flush
set), otherwise the body does nothing and the loop condition is re-evaluated
on the unchanged set.  Returns the final (pending_flushes, do_flush) when the
set empties; none means the fuel ran out with the loop still running. -/
def check_pending_flushes_loop :
    Nat → List Nat → Nat → Bool → Option (List Nat × Bool)
  | 0, _, _, _ => none
  | fuel + 1, pf, next_block, do_flush =>
    match pf.min? with
    | none => some (pf, do_flush)
    | some m =>
      if m < next_block then
        check_pending_flushes_loop fuel (pf.erase m) next_block true
      else
        check_pending_flushes_loop fuel pf next_block do_flush

/-- The object-store and log operations issued by Pool::end_txg whose order
C4 speaks about. -/
inductive TxgIoEvent where
  | flushStorageObjectLog
  | flushObjectSizeLog
  | flushPendingFreesLog
  | clearStorageObjectLog
  | clearObjectSizeLog
  | clearPendingFreesLog
  | putUberblock
  | putSuper
  | spawnObjectDeletion
  | endTxgReturn
deriving Repr, DecidableEq

/-- Whether an event is a flush of one of the three object-based logs. -/
def isLogFlush : TxgIoEvent → Bool
  | TxgIoEvent.flushStorageObjectLog => true
  | TxgIoEvent.flushObjectSizeLog => true
  | TxgIoEvent.flushPendingFreesLog => true
  | _ => false

/-- The sequence of log and object-store operations awaited by Pool::end_txg
(pool.rs lines 818-910), in program order.  condenseStorage selects the
try_condense_object_log branch (clear then flush, lines 1634-1650);
reclaimReady selects the reclaim callback splice (build_new_frees clears and
flushes the pending frees log, lines 1228-1249, and may condense the object
size log, lines 1685-1714); then the three unconditional flushes, the
uberblock PUT, the super PUT, the spawned deletion of objects_to_delete, and
the return that acknowledges the txg. -/
def end_txg_events (condenseStorage reclaimReady condenseSizes : Bool) :
    List TxgIoEvent :=
  (if condenseStorage then
      [TxgIoEvent.clearStorageObjectLog, TxgIoEvent.flushStorageObjectLog]
    else [])
  ++ (if reclaimReady then
        [TxgIoEvent.clearPendingFreesLog, TxgIoEvent.flushPendingFreesLog]
        ++ (if condenseSizes then
              [TxgIoEvent.clearObjectSizeLog, TxgIoEvent.flushObjectSizeLog]
            else [])
      else [])
  ++ [TxgIoEvent.flushStorageObjectLog, TxgIoEvent.flushObjectSizeLog,
      TxgIoEvent.flushPendingFreesLog, TxgIoEvent.putUberblock,
      TxgIoEvent.putSuper, TxgIoEvent.spawnObjectDeletion,
      TxgIoEvent.endTxgReturn]

/-- The ordering C4 claims of an end_txg trace: every log flush precedes the
uberblock PUT, the uberblock PUT precedes the super PUT, the super PUT
precedes the start of object deletion, and all of them precede the return. -/
def txgOrderOk (t : List TxgIoEvent) : Prop :=
  TxgIoEvent.putUberblock ∈ t ∧ TxgIoEvent.putSuper ∈ t ∧
  TxgIoEvent.spawnObjectDeletion ∈ t ∧ TxgIoEvent.endTxgReturn ∈ t ∧
  (∀ i, i < t.length → isLogFlush (t.getD i TxgIoEvent.endTxgReturn) = true →
    i < t.indexOf TxgIoEvent.putUberblock) ∧
  t.indexOf TxgIoEvent.putUberblock < t.indexOf TxgIoEvent.putSuper ∧
  t.indexOf TxgIoEvent.putSuper < t.indexOf TxgIoEvent.spawnObjectDeletion ∧
  t.indexOf TxgIoEvent.spawnObjectDeletion < t.indexOf TxgIoEvent.endTxgReturn ∧
  t.indexOf TxgIoEvent.endTxgReturn = t.length - 1

instance (t : List TxgIoEvent) : Decidable (txgOrderOk t) := by
  unfold txgOrderOk
  infer_instance

/-- LOG_CONDENSE_MIN_CHUNKS (pool.rs line 37). -/
def LOG_CONDENSE_MIN_CHUNKS : Nat := 30

/-- LOG_CONDENSE_MULTIPLE (pool.rs line 39). -/
def LOG_CONDENSE_MULTIPLE : Nat := 5

/-- Modelled from the spec: ENTRIES_PER_OBJECT is a constant of
object_based_log.rs, which is not under src/; the spec (section 4.7) uses it
without stating its value.  The value here is the chunk size of the upstream
object agent; the condense theorems below are parametric in it and the
counterexample only needs it to be at least 2. -/
def ENTRIES_PER_OBJECT : Nat := 100000

/-- StorageObjectLogEntry (pool.rs lines 101-110). -/
inductive StorageObjectLogEntry where
  | Alloc (obj : Nat) (first_possible_block : Nat)
  | Free (obj : Nat)
deriving Repr, DecidableEq

/-- ObjectSizeLogEntry (pool.rs lines 114-124). -/
inductive ObjectSizeLogEntry where
  | Exists (obj : Nat) (num_blocks : Nat) (num_bytes : Nat)
  | Freed (obj : Nat)
deriving Repr, DecidableEq

/-- The condense threshold as computed by the source (pool.rs lines 1617-1621
and 1668-1671): LOG_CONDENSE_MIN_CHUNKS + LOG_CONDENSE_MULTIPLE * (len +
ENTRIES_PER_OBJECT) / ENTRIES_PER_OBJECT, where Rust * and / associate left,
so the multiplication happens before the floor division. -/
def condense_threshold (entriesPerObject len : Nat) : Nat :=
  LOG_CONDENSE_MIN_CHUNKS +
    LOG_CONDENSE_MULTIPLE * (len + entriesPerObject) / entriesPerObject

/-- The threshold as the claim words it, with a true ceiling:
LOG_CONDENSE_MIN_CHUNKS + LOG_CONDENSE_MULTIPLE * ceil((len + E) / E).
Written from the spec wording, for comparison against condense_threshold. -/
def condense_threshold_spec (entriesPerObject len : Nat) : Nat :=
  LOG_CONDENSE_MIN_CHUNKS +
    LOG_CONDENSE_MULTIPLE *
      ((len + entriesPerObject + (entriesPerObject - 1)) / entriesPerObject)

/-- try_condense_object_log (pool.rs lines 1614-1659) restricted to the
decision and the resulting log contents: when num_chunks reaches the
threshold, the log is cleared and rewritten with one Alloc entry per
ObjectBlockMap entry (obj, first_possible_block), then flushed; otherwise
nothing changes. -/
def try_condense_object_log (entriesPerObject num_chunks : Nat)
    (block_to_obj : List (Nat × Nat)) (log_entries : List StorageObjectLogEntry) :
    List StorageObjectLogEntry :=
  if num_chunks < condense_threshold entriesPerObject block_to_obj.length then
    log_entries
  else
    block_to_obj.map (fun p => StorageObjectLogEntry.Alloc p.1 p.2)

/-- try_condense_object_sizes (pool.rs lines 1661-1723) restricted to the
decision and the resulting log contents: when num_chunks reaches the
threshold, the remainder is captured, the log is cleared and rewritten with
one Exists entry (num_blocks 0, an XXX in the source) per object_sizes entry,
followed by the captured remainder; otherwise nothing changes. -/
def try_condense_object_sizes (entriesPerObject num_chunks : Nat)
    (object_sizes : List (Nat × Nat)) (remainder log_entries : List ObjectSizeLogEntry) :
    List ObjectSizeLogEntry :=
  if num_chunks < condense_threshold entriesPerObject object_sizes.length then
    log_entries
  else
    (object_sizes.map (fun p => ObjectSizeLogEntry.Exists p.1 0 p.2)) ++ remainder


/-- PendingObjectState (pool.rs lines 319-323).  The oneshot senders riding on
the pending object are identified by the block ids they acknowledge. -/
inductive PendingObjectState where
  | Pending (phys : DataObjectPhys) (senders : List Nat)
  | NotPending (next_block : Nat)
deriving Repr, DecidableEq

/-- PendingObjectState::is_pending (pool.rs lines 340-345). -/
def PendingObjectState.is_pending : PendingObjectState → Bool
  | PendingObjectState.Pending _ _ => true
  | PendingObjectState.NotPending _ => false

/-- Modelled from the spec: ObjectBlockMap (object_block_map.rs is not under
src/), spec section 4.3: an ordered map from ObjectID to the first possible
BlockID of the object; insert requires obj > last_obj() and therefore appends
at the tail; last_obj is the largest key, 0 when empty. -/
structure ObjectBlockMap where
  entries : List (Nat × Nat)
deriving Repr, DecidableEq

/-- Modelled from the spec: last_obj() of the ObjectBlockMap. -/
def ObjectBlockMap.last_obj (m : ObjectBlockMap) : Nat :=
  m.entries.foldl (fun acc p => max acc p.1) 0

/-- Modelled from the spec: insert(obj, first_possible_block); the caller
asserts obj > last_obj(), so the entry goes at the tail. -/
def ObjectBlockMap.insert (m : ObjectBlockMap) (obj blk : Nat) : ObjectBlockMap :=
  { entries := m.entries ++ [(obj, blk)] }

/-- The state resume_complete works on: the recovered objects in ascending
ObjectID order (BTreeMap iteration), the sorted set of pending write ids, the
pending write map, and the fields account_new_object touches.  signaled
collects the block ids whose oneshot completion was sent success. -/
structure ResumeState where
  recovered_objects : List DataObjectPhys
  ordered_writes : List Nat
  pending_unordered_writes : BlockMap
  stats : PoolStatsPhys
  block_to_obj : ObjectBlockMap
  storage_object_log : List StorageObjectLogEntry
  object_size_log : List ObjectSizeLogEntry
  pending_object : PendingObjectState
  signaled : List Nat
deriving Repr, DecidableEq

/-- Pool::account_new_object (pool.rs lines 946-980): assert the guid and that
the object carries exactly the syncing txg and an id beyond last_obj; bump the
stats (objects_count, blocks_bytes, blocks_count); insert into the
ObjectBlockMap; append an Alloc entry and an Exists entry to the two logs. -/
def account_new_object (guid txg : Nat) (st : ResumeState) (phys : DataObjectPhys) :
    Option ResumeState :=
  if phys.guid = guid ∧ phys.min_txg = txg ∧ phys.max_txg = txg
      ∧ st.block_to_obj.last_obj + 1 ≤ phys.object then
    some { st with
      stats := { st.stats with
        objects_count := st.stats.objects_count + 1
        blocks_bytes := st.stats.blocks_bytes + phys.blocks_size
        blocks_count := st.stats.blocks_count + phys.blocks.length }
      block_to_obj := st.block_to_obj.insert phys.object phys.min_block
      storage_object_log := st.storage_object_log
        ++ [StorageObjectLogEntry.Alloc phys.object phys.min_block]
      object_size_log := st.object_size_log
        ++ [ObjectSizeLogEntry.Exists phys.object phys.blocks.length phys.blocks_size] }
  else none

/-- The obsolete-write loop of resume_complete (pool.rs lines 731-742): remove
each obsolete id from pending_unordered_writes; the unwrap panics when an id
is absent. -/
def removePendingWrites : BlockMap → List Nat → Option BlockMap
  | m, [] => some m
  | m, id :: rest =>
    match lookupKey m id with
    | none => none
    | some _ => removePendingWrites (removeKey m id) rest

/-- The branch condition of the merge loop (pool.rs lines 709-710): a
recovered object is next when no pending write remains or the smallest
pending write id is at least the object min_block. -/
def adopt_cond (ordered_writes : List Nat) (robj_min_block : Nat) : Bool :=
  match ordered_writes.head? with
  | none => true
  | some w => decide (robj_min_block ≤ w)

/-- The adopt branch of the merge loop of Pool::resume_complete (pool.rs lines
709-747): account the lowest-ObjectID recovered object, split the pending
write set at its next_block, remove every pending write below next_block and
signal its waiter with success, assert the pending object slot is NotPending
and set it to NotPending(next_block), and drop the object from the recovered
map. -/
def resume_adopt (guid txg : Nat) (st : ResumeState) : Option ResumeState :=
  match st.recovered_objects with
  | [] => none
  | robj :: rest =>
    if adopt_cond st.ordered_writes robj.min_block then
      match account_new_object guid txg st robj with
      | none => none
      | some st1 =>
        match removePendingWrites st1.pending_unordered_writes
            (st.ordered_writes.filter (fun w => decide (w < robj.next_block))) with
        | none => none
        | some pmap =>
          if st1.pending_object.is_pending then none
          else
            some { st1 with
              recovered_objects := rest
              ordered_writes :=
                st.ordered_writes.filter (fun w => decide (robj.next_block ≤ w))
              pending_unordered_writes := pmap
              signaled := st1.signaled
                ++ st.ordered_writes.filter (fun w => decide (w < robj.next_block))
              pending_object := PendingObjectState.NotPending robj.next_block }
    else none

/-- Concrete resume state for the C3 witness: one recovered object (exObjA up
to block 8) and one pending write (block 6) already covered by it. -/
def exResumeState : ResumeState :=
  { recovered_objects := [exObjA]
    ordered_writes := [6]
    pending_unordered_writes := [(6, [9])]
    stats := { blocks_count := 0, blocks_bytes := 0, pending_frees_count := 0
               pending_frees_bytes := 0, objects_count := 0 }
    block_to_obj := { entries := [] }
    storage_object_log := []
    object_size_log := []
    pending_object := PendingObjectState.NotPending 5
    signaled := [] }


/-- ENTRIES_PER_CHUNK (block_based_log.rs line 23). -/
def ENTRIES_PER_CHUNK : Nat := 100

/-- Rust slice::chunks(n) as used by BlockBasedLog::flush (block_based_log.rs
line 91): consecutive chunks of n entries, the last possibly shorter; every
chunk is non-empty when n is positive. -/
def chunksOf {T : Type} : Nat → List T → List (List T)
  | _, [] => []
  | 0, _ :: _ => []
  | n + 1, a :: l => ((a :: l).take (n + 1)) :: chunksOf (n + 1) (l.drop n)
termination_by _ l => l.length
decreasing_by
  simp only [List.length_drop, List.length_cons]
  omega

/-- BlockBasedLog<T> (block_based_log.rs lines 40-48), reduced to the entry
level: the decoded entries of each flushed chunk in ChunkID order (the
extents, offsets and the per-chunk first-entry index of the source are
determined by these), the pending entries, and the num_entries counter of
BlockBasedLogPhys. -/
structure BlockBasedLog (T : Type) where
  chunks_entries : List (List T)
  pending_entries : List T
  num_entries : Nat

/-- A BlockBasedLog opened from the default BlockBasedLogPhys. -/
def BlockBasedLog.empty {T : Type} : BlockBasedLog T :=
  { chunks_entries := [], pending_entries := [], num_entries := 0 }

/-- BlockBasedLog::append (block_based_log.rs lines 80-83): buffer in RAM. -/
def BlockBasedLog.append {T : Type} (log : BlockBasedLog T) (entry : T) :
    BlockBasedLog T :=
  { log with pending_entries := log.pending_entries ++ [entry] }

/-- Append a sequence of entries in order. -/
def BlockBasedLog.appendAll {T : Type} (log : BlockBasedLog T) (es : List T) :
    BlockBasedLog T :=
  es.foldl BlockBasedLog.append log

/-- BlockBasedLog::flush (block_based_log.rs lines 85-141): group the pending
entries into chunks of at most ENTRIES_PER_CHUNK, write them out after the
existing chunks, count them into num_entries, and clear the pending buffer.
(When the pending buffer is empty the source returns early; that equals this
definition, which then appends no chunk.) -/
def BlockBasedLog.flush {T : Type} (log : BlockBasedLog T) : BlockBasedLog T :=
  { chunks_entries := log.chunks_entries ++ chunksOf ENTRIES_PER_CHUNK log.pending_entries
    pending_entries := []
    num_entries := log.num_entries + log.pending_entries.length }

/-- BlockBasedLog::iter (block_based_log.rs lines 182-223): panics when
pending entries exist; yields the chunk entries in order, verifying chunk id
continuity, and panics unless the total yielded equals num_entries. -/
def BlockBasedLog.iter {T : Type} (log : BlockBasedLog T) : Option (List T) :=
  if log.pending_entries.isEmpty then
    if log.chunks_entries.flatten.length = log.num_entries then
      some log.chunks_entries.flatten
    else none
  else none

/-- The loop of Rust slice::binary_search_by_key over a list of keys, with
explicit fuel (always called with enough fuel for the initial left and right).
Except.ok is a position whose key matches; Except.error is the insertion
point. -/
def binary_search_go (keys : List Nat) (key : Nat) :
    Nat → Nat → Nat → Except Nat Nat
  | 0, left, _ => Except.error left
  | fuel + 1, left, right =>
    if left < right then
      let mid := (left + right) / 2
      if keys.getD mid 0 < key then binary_search_go keys key fuel (mid + 1) right
      else if key < keys.getD mid 0 then binary_search_go keys key fuel left mid
      else Except.ok mid
    else Except.error left

/-- Rust slice::binary_search_by_key over a list of keys. -/
def binary_search_by_key (keys : List Nat) (key : Nat) : Except Nat Nat :=
  binary_search_go keys key (keys.length + 1) 0 keys.length

/-- The first-entry keys of the chunks, as retained in the chunks index of the
source during flush (chunk.entries.first().unwrap(); every flushed chunk is
non-empty). -/
def chunkFirstKeys {T : Type} (f : T → Nat) (chunks : List (List T)) : List Nat :=
  chunks.map (fun c => (c.map f).headD 0)

/-- The within-chunk part of BlockBasedLog::lookup_by_key (block_based_log.rs
lines 270-277): binary search the fetched chunk entries by the projected key;
a hit returns that entry. -/
def chunk_search {T : Type} (entries : List T) (key : Nat) (f : T → Nat) : Option T :=
  match binary_search_by_key (entries.map f) key with
  | Except.ok j => entries.get? j
  | Except.error _ => none

/-- BlockBasedLog::lookup_by_key (block_based_log.rs lines 245-278): binary
search the chunks index by first-entry key (an insertion point of 0 means the
key precedes the first chunk: none; otherwise the chunk before the insertion
point), then binary search within the selected chunk. -/
def BlockBasedLog.lookup_by_key {T : Type} (log : BlockBasedLog T) (key : Nat)
    (f : T → Nat) : Option T :=
  match binary_search_by_key (chunkFirstKeys f log.chunks_entries) key with
  | Except.ok i => chunk_search (log.chunks_entries.getD i []) key f
  | Except.error i =>
    if i = 0 then none
    else chunk_search (log.chunks_entries.getD (i - 1) []) key f

/-- Keys strictly increasing along positions. -/
def StrictSortedKeys (keys : List Nat) : Prop :=
  ∀ i j, i < j → j < keys.length → keys.getD i 0 < keys.getD j 0


/-- Concrete sorted log entries for the C2 witness (key = first component). -/
def exLogEntries : List (Nat × Nat) := [(1, 10), (3, 30), (5, 50)]

/- Definitions above; more definitions are appended here as the development
grows.  All theorems are kept below the marker. -/

/- ### Theorems ### -/

theorem mem_removeKey {m : BlockMap} {k : Nat} {p : Nat × Bytes}
    (h : p ∈ removeKey m k) : p ∈ m ∧ p.1 ≠ k := by
  induction m with
  | nil => simp [removeKey] at h
  | cons q t ih =>
    obtain ⟨k', v⟩ := q
    simp only [removeKey] at h
    by_cases hk : k' = k
    · simp [hk] at h
      rcases ih h with ⟨h1, h2⟩
      exact ⟨List.mem_cons_of_mem _ h1, h2⟩
    · simp [hk] at h
      rcases h with h | h
      · subst h; simpa using hk
      · rcases ih h with ⟨h1, h2⟩
        exact ⟨List.mem_cons_of_mem _ h1, h2⟩

theorem removeKey_eq_self {m : BlockMap} {k : Nat}
    (h : ∀ p ∈ m, p.1 ≠ k) : removeKey m k = m := by
  induction m with
  | nil => rfl
  | cons q t ih =>
    obtain ⟨k', v⟩ := q
    have hk : k' ≠ k := h (k', v) (List.mem_cons_self _ _)
    simp only [removeKey, if_neg hk]
    rw [ih]
    intro p hp
    exact h p (List.mem_cons_of_mem _ hp)

theorem lookupKey_eq_none {m : BlockMap} {k : Nat}
    (h : lookupKey m k = none) : ∀ p ∈ m, p.1 ≠ k := by
  induction m with
  | nil => intro p hp; simp at hp
  | cons q t ih =>
    obtain ⟨k', v⟩ := q
    simp only [lookupKey] at h
    by_cases hk : k' = k
    · simp [hk] at h
    · simp only [if_neg hk] at h
      intro p hp
      rcases List.mem_cons.1 hp with h1 | h1
      · subst h1; simpa using hk
      · exact ih h p h1

theorem lookupKey_mem {m : BlockMap} {k : Nat} {v : Bytes}
    (h : lookupKey m k = some v) : (k, v) ∈ m := by
  induction m with
  | nil => simp [lookupKey] at h
  | cons q t ih =>
    obtain ⟨k', v'⟩ := q
    simp only [lookupKey] at h
    by_cases hk : k' = k
    · subst hk
      simp at h
      subst h
      exact List.mem_cons_self _ _
    · simp only [if_neg hk] at h
      exact List.mem_cons_of_mem _ (ih h)

theorem nodupKeys_removeKey {m : BlockMap} {k : Nat} (h : NodupKeys m) :
    NodupKeys (removeKey m k) := by
  induction m with
  | nil => simpa [removeKey] using h
  | cons q t ih =>
    obtain ⟨k', v⟩ := q
    simp only [NodupKeys, List.map_cons, List.nodup_cons] at h
    by_cases hk : k' = k
    · simp only [removeKey, if_pos hk]
      exact ih h.2
    · simp only [removeKey, if_neg hk, NodupKeys, List.map_cons, List.nodup_cons]
      refine ⟨fun hc => ?_, ih h.2⟩
      rcases List.mem_map.1 hc with ⟨p, hp, hpk⟩
      exact h.1 (List.mem_map.2 ⟨p, (mem_removeKey hp).1, hpk⟩)

theorem not_mem_keys_removeKey {m : BlockMap} {k : Nat} :
    k ∉ (removeKey m k).map Prod.fst := by
  intro hc
  rcases List.mem_map.1 hc with ⟨p, hp, hpk⟩
  exact (mem_removeKey hp).2 hpk

theorem nodupKeys_insertKey {m : BlockMap} {k : Nat} {v : Bytes} (h : NodupKeys m) :
    NodupKeys (insertKey m k v) := by
  simp only [insertKey, NodupKeys, List.map_cons, List.nodup_cons]
  exact ⟨not_mem_keys_removeKey, nodupKeys_removeKey h⟩

theorem blocksSum_removeKey {m : BlockMap} {k : Nat} {v : Bytes}
    (hnd : NodupKeys m) (h : lookupKey m k = some v) :
    blocksSum m = v.length + blocksSum (removeKey m k) := by
  induction m with
  | nil => simp [lookupKey] at h
  | cons q t ih =>
    obtain ⟨k', v'⟩ := q
    simp only [NodupKeys, List.map_cons, List.nodup_cons] at hnd
    simp only [lookupKey] at h
    by_cases hk : k' = k
    · subst hk
      simp at h
      subst h
      have htq : removeKey t k' = t := by
        apply removeKey_eq_self
        intro p hp hpk
        exact hnd.1 (List.mem_map.2 ⟨p, hp, hpk⟩)
      simp [removeKey, blocksSum, htq]
    · simp only [if_neg hk] at h
      simp only [removeKey, if_neg hk, blocksSum, List.map_cons, List.sum_cons]
      have := ih hnd.2 h
      simp only [blocksSum] at this
      omega

theorem blocksSum_insertKey (m : BlockMap) (k : Nat) (v : Bytes) :
    blocksSum (insertKey m k v) = v.length + blocksSum (removeKey m k) := by
  simp [insertKey, blocksSum]

theorem lookupKey_insertKey_self (m : BlockMap) (k : Nat) (v : Bytes) :
    lookupKey (insertKey m k v) k = some v := by
  simp [insertKey, lookupKey]

theorem lookupKey_removeKey_ne {m : BlockMap} {k k' : Nat} (h : k' ≠ k) :
    lookupKey (removeKey m k) k' = lookupKey m k' := by
  induction m with
  | nil => rfl
  | cons q t ih =>
    obtain ⟨k0, v0⟩ := q
    simp only [removeKey]
    by_cases hk : k0 = k
    · subst hk
      have : k0 ≠ k' := fun hc => h hc.symm
      simp [lookupKey, this, ih]
    · simp only [if_neg hk, lookupKey]
      by_cases hk' : k0 = k'
      · simp [hk']
      · simp [hk', ih]

theorem lookupKey_insertKey_ne (m : BlockMap) {k k' : Nat} (v : Bytes) (h : k' ≠ k) :
    lookupKey (insertKey m k v) k' = lookupKey m k' := by
  simp only [insertKey, lookupKey]
  have : k ≠ k' := fun hc => h hc.symm
  simp [this, lookupKey_removeKey_ne h]
theorem verifyOk_new_pending (g o nb t : Nat) : (new_pending g o nb t).verifyOk := by
  refine ⟨rfl, le_refl _, le_refl _, ?_⟩
  intro p hp
  simp [new_pending] at hp

theorem verifyOk_write_unordered_step {phys : DataObjectPhys} {buf : Bytes}
    (h : phys.verifyOk) : (write_unordered_step phys buf).verifyOk := by
  obtain ⟨hsz, htxg, hmb, hkeys⟩ := h
  have hnb : ∀ p ∈ phys.blocks, p.1 ≠ phys.next_block :=
    fun p hp => Nat.ne_of_lt (hkeys p hp).2
  have hrm : removeKey phys.blocks phys.next_block = phys.blocks := removeKey_eq_self hnb
  refine ⟨?_, htxg, ?_, ?_⟩
  · show phys.blocks_size + buf.length
      = blocksSum (insertKey phys.blocks phys.next_block buf)
    rw [blocksSum_insertKey, hrm, hsz]
    omega
  · show phys.min_block ≤ phys.next_block + 1
    omega
  · intro p hp
    show phys.min_block ≤ p.1 ∧ p.1 < phys.next_block + 1
    rcases List.mem_cons.1 hp with h1 | h1
    · subst h1
      exact ⟨hmb, Nat.lt_succ_self _⟩
    · rw [hrm] at h1
      rcases hkeys p h1 with ⟨h2, h3⟩
      exact ⟨h2, Nat.lt_succ_of_lt h3⟩

theorem verifyOk_do_overwrite {txg id : Nat} {data : Bytes} {phys r : DataObjectPhys}
    (hnd : NodupKeys phys.blocks) (h : phys.verifyOk)
    (he : do_overwrite_task txg id data phys = some r) : r.verifyOk := by
  obtain ⟨hsz, htxg, hmb, hkeys⟩ := h
  unfold do_overwrite_task at he
  split at he
  case isFalse => simp at he
  case isTrue htx =>
    cases hlk : lookupKey phys.blocks id with
    | none => rw [hlk] at he; simp at he
    | some removed =>
      rw [hlk] at he
      dsimp only at he
      by_cases hlen : removed.length = data.length
      case neg => rw [if_neg hlen] at he; simp at he
      case pos =>
        rw [if_pos hlen] at he
        have hr := Option.some.inj he
        subst hr
        have hno : ∀ p ∈ removeKey phys.blocks id, p.1 ≠ id :=
          fun p hp => (mem_removeKey hp).2
        have hrr : removeKey (removeKey phys.blocks id) id = removeKey phys.blocks id :=
          removeKey_eq_self hno
        refine ⟨?_, htxg, hmb, ?_⟩
        · show phys.blocks_size = blocksSum (insertKey (removeKey phys.blocks id) id data)
          rw [blocksSum_insertKey, hrr, hsz, blocksSum_removeKey hnd hlk]
          omega
        · intro p hp
          rcases List.mem_cons.1 hp with h1 | h1
          · subst h1
            exact hkeys (id, removed) (lookupKey_mem hlk)
          · rw [hrr] at h1
            exact hkeys p (mem_removeKey h1).1

theorem verifyOk_remove_freed_block {phys r : DataObjectPhys} {pfle : PendingFreesLogEntry}
    (hnd : NodupKeys phys.blocks) (h : phys.verifyOk)
    (he : remove_freed_block phys pfle = some r) : r.verifyOk := by
  obtain ⟨hsz, htxg, hmb, hkeys⟩ := h
  unfold remove_freed_block at he
  cases hlk : lookupKey phys.blocks pfle.block with
  | none =>
    rw [hlk] at he
    have hr := Option.some.inj he
    subst hr
    exact ⟨hsz, htxg, hmb, hkeys⟩
  | some v =>
    rw [hlk] at he
    dsimp only at he
    by_cases hlen : v.length = pfle.size
    case neg => rw [if_neg hlen] at he; simp at he
    case pos =>
      rw [if_pos hlen] at he
      have hr := Option.some.inj he
      subst hr
      refine ⟨?_, htxg, hmb, ?_⟩
      · show phys.blocks_size - v.length = blocksSum (removeKey phys.blocks pfle.block)
        have := blocksSum_removeKey hnd hlk
        omega
      · intro p hp
        exact hkeys p (mem_removeKey hp).1

theorem merge_blocks_into_verify {l : BlockMap} :
    ∀ {a r : DataObjectPhys}, NodupKeys a.blocks → a.verifyOk →
    (∀ p ∈ l, a.min_block ≤ p.1 ∧ p.1 < a.next_block) →
    merge_blocks_into a l = some r → r.verifyOk := by
  induction l with
  | nil =>
    intro a r _ hv _ he
    simp only [merge_blocks_into] at he
    exact (Option.some.inj he) ▸ hv
  | cons q rest ih =>
    obtain ⟨k, v⟩ := q
    intro a r hnd hv hb he
    obtain ⟨hsz, htxg, hmb, hkeys⟩ := hv
    have hbk : a.min_block ≤ k ∧ k < a.next_block := hb (k, v) (List.mem_cons_self _ _)
    have hbr : ∀ p ∈ rest, a.min_block ≤ p.1 ∧ p.1 < a.next_block :=
      fun p hp => hb p (List.mem_cons_of_mem _ hp)
    simp only [merge_blocks_into] at he
    cases hlk : lookupKey a.blocks k with
    | some old =>
      rw [hlk] at he
      dsimp only at he
      by_cases hov : old = v
      case neg => rw [if_neg hov] at he; simp at he
      case pos =>
        rw [if_pos hov] at he
        subst hov
        refine ih (a := { a with blocks := insertKey a.blocks k old })
          (nodupKeys_insertKey hnd) ⟨?_, htxg, hmb, ?_⟩ hbr he
        · show a.blocks_size = blocksSum (insertKey a.blocks k old)
          rw [blocksSum_insertKey, hsz, blocksSum_removeKey hnd hlk]
        · intro p hp
          rcases List.mem_cons.1 hp with h1 | h1
          · subst h1
            exact hbk
          · exact hkeys p (mem_removeKey h1).1
    | none =>
      rw [hlk] at he
      have hrm : removeKey a.blocks k = a.blocks :=
        removeKey_eq_self (lookupKey_eq_none hlk)
      refine ih (a := { a with blocks := insertKey a.blocks k v,
                               blocks_size := a.blocks_size + v.length })
        (nodupKeys_insertKey hnd) ⟨?_, htxg, hmb, ?_⟩ hbr he
      · show a.blocks_size + v.length = blocksSum (insertKey a.blocks k v)
        rw [blocksSum_insertKey, hrm, hsz]
        omega
      · intro p hp
        rcases List.mem_cons.1 hp with h1 | h1
        · subst h1
          exact hbk
        · rw [hrm] at h1
          exact hkeys p h1

theorem verifyOk_reclaim_merge {a b r : DataObjectPhys}
    (hnd : NodupKeys a.blocks) (ha : a.verifyOk) (hb : b.verifyOk)
    (he : reclaim_merge a b = some r) : r.verifyOk := by
  obtain ⟨hasz, hatxg, hamb, hakeys⟩ := ha
  obtain ⟨hbsz, hbtxg, hbmb, hbkeys⟩ := hb
  unfold reclaim_merge at he
  split at he
  case isFalse => simp at he
  case isTrue hg =>
    refine merge_blocks_into_verify (a :=
      { a with
        object := min a.object b.object
        min_txg := min a.min_txg b.min_txg
        max_txg := max a.max_txg b.max_txg
        min_block := min a.min_block b.min_block
        next_block := max a.next_block b.next_block }) hnd ⟨hasz, ?_, ?_, ?_⟩ ?_ he
    · show min a.min_txg b.min_txg ≤ max a.max_txg b.max_txg
      omega
    · show min a.min_block b.min_block ≤ max a.next_block b.next_block
      omega
    · intro p hp
      rcases hakeys p hp with ⟨h1, h2⟩
      show min a.min_block b.min_block ≤ p.1 ∧ p.1 < max a.next_block b.next_block
      omega
    · intro p hp
      rcases hbkeys p hp with ⟨h1, h2⟩
      show min a.min_block b.min_block ≤ p.1 ∧ p.1 < max a.next_block b.next_block
      omega

/-- C1: Every DataObjectPhys the engine PUTs to or GETs from the object store
satisfies the verify() invariant (blocks_size equals the sum of block
lengths, min_txg at most max_txg, min_block at most next_block, and every
block key within [min_block, next_block)), and every operation that builds or
rewrites a data object preserves it: opening a fresh pending object
(new_pending), packing a buffered write into it (the drain loop of
write_unordered_to_pending_object; the flush path PUTs exactly such an
object), the sync-to-convergence overwrite task (do_overwrite_impl), the
freed-block removal of GC, and the GC consolidation merge
(reclaim_frees_object).  NodupKeys is the HashMap representation invariant of
the Rust block map. -/
theorem C1_data_object_invariant :
    (∀ g o nb t, (new_pending g o nb t).verifyOk) ∧
    (∀ (phys : DataObjectPhys) (buf : Bytes), phys.verifyOk →
      (write_unordered_step phys buf).verifyOk) ∧
    (∀ (txg id : Nat) (data : Bytes) (phys r : DataObjectPhys),
      NodupKeys phys.blocks → phys.verifyOk →
      do_overwrite_task txg id data phys = some r → r.verifyOk) ∧
    (∀ (phys r : DataObjectPhys) (pfle : PendingFreesLogEntry),
      NodupKeys phys.blocks → phys.verifyOk →
      remove_freed_block phys pfle = some r → r.verifyOk) ∧
    (∀ a b r : DataObjectPhys,
      NodupKeys a.blocks → a.verifyOk → b.verifyOk →
      reclaim_merge a b = some r → r.verifyOk) ∧
    (∀ d r : DataObjectPhys, put_checked d = some r → r.verifyOk) := by
  refine ⟨verifyOk_new_pending,
          fun phys buf h => verifyOk_write_unordered_step h,
          fun txg id data phys r hnd h he => verifyOk_do_overwrite hnd h he,
          fun phys r pfle hnd h he => verifyOk_remove_freed_block hnd h he,
          fun a b r hnd ha hb he => verifyOk_reclaim_merge hnd ha hb he,
          fun d r he => ?_⟩
  unfold put_checked at he
  split at he
  case isTrue hv => exact (Option.some.inj he) ▸ hv
  case isFalse => simp at he

theorem C1_data_object_invariant_witness :
    (new_pending 1 2 3 4).verifyOk ∧
    (write_unordered_step exObjA [7, 7, 7]).verifyOk ∧
    DataObjectPhys.verifyOk
      { guid := 1, object := 2, blocks_size := 3, min_block := 5, next_block := 8
        min_txg := 3, max_txg := 3, blocks := [(5, [1, 2]), (6, [4])] } ∧
    DataObjectPhys.verifyOk
      { guid := 1, object := 2, blocks_size := 2, min_block := 5, next_block := 8
        min_txg := 3, max_txg := 3, blocks := [(5, [8, 9])] } ∧
    DataObjectPhys.verifyOk
      { guid := 1, object := 2, blocks_size := 5, min_block := 5, next_block := 10
        min_txg := 3, max_txg := 4, blocks := [(8, [1, 2]), (5, [8, 9]), (6, [4])] } ∧
    exObjA.verifyOk :=
  ⟨C1_data_object_invariant.1 1 2 3 4,
   C1_data_object_invariant.2.1 exObjA [7, 7, 7] (by decide),
   C1_data_object_invariant.2.2.1 3 5 [1, 2] exObjA _ (by decide) (by decide) (by decide),
   C1_data_object_invariant.2.2.2.1 exObjA _ ⟨6, 1⟩ (by decide) (by decide) (by decide),
   C1_data_object_invariant.2.2.2.2.1 exObjA exObjB _ (by decide) (by decide) (by decide)
     (by decide),
   C1_data_object_invariant.2.2.2.2.2 exObjA exObjA (by decide)⟩

/-- C8: For every pool state, get_prop for zoa_allocated returns the stats
field pending_frees_bytes, the same value that zoa_freeing returns, and
zoa_objects returns objects_count. -/
theorem C8_get_prop_fields (stats : PoolStatsPhys) :
    get_prop stats "zoa_allocated" = some stats.pending_frees_bytes ∧
    get_prop stats "zoa_allocated" = get_prop stats "zoa_freeing" ∧
    get_prop stats "zoa_objects" = some stats.objects_count :=
  ⟨rfl, rfl, rfl⟩

/-- C5: A reclaim pass is started by end_txg if and only if no reclaim is in
progress and pending_frees_count is at least max(FREE_MIN_BLOCKS,
blocks_count * FREE_HIGHWATER_PCT / 100); below the threshold
try_reclaim_frees changes nothing. -/
theorem C5_reclaim_start_threshold (s : ReclaimCheckState) :
    (try_reclaim_starts s = true ↔
      s.reclaim_cb_busy = false ∧
      max FREE_MIN_BLOCKS (reclaim_threshold s.stats.blocks_count)
        ≤ s.stats.pending_frees_count) ∧
    (try_reclaim_starts s = false → try_reclaim_frees s = s) := by
  constructor
  · unfold try_reclaim_starts
    by_cases hb : s.reclaim_cb_busy
    · simp [hb]
    · simp only [hb, if_false, Bool.false_eq_true, false_and, if_neg]
      by_cases hc : s.stats.pending_frees_count < reclaim_threshold s.stats.blocks_count
          ∨ s.stats.pending_frees_count < FREE_MIN_BLOCKS
      · simp only [if_pos hc]
        constructor
        · intro h; exact absurd h (by simp)
        · intro h
          exfalso
          have := h.2
          rcases hc with hc | hc <;> omega
      · simp only [if_neg hc]
        push_neg at hc
        simp only [true_iff, eq_self_iff_true]
        exact ⟨by simp [hb], by omega⟩
  · intro h
    unfold try_reclaim_frees
    rw [h]
    simp

theorem C5_reclaim_start_threshold_witness :
    try_reclaim_frees exReclaimState = exReclaimState :=
  (C5_reclaim_start_threshold exReclaimState).2 (by decide)

/-- C7 (code_bug evidence): protocol misuse does not produce a structured
error return; the assertions abort the process.  begin_txg with txg equal to
last_txg panics, begin_txg while a txg is open panics, and write_block with no
open txg panics. -/
theorem C7_protocol_misuse_panics :
    begin_txg { last_txg := 5, syncing_txg := none } 5 = RustOutcome.panicked ∧
    begin_txg { last_txg := 5, syncing_txg := some 6 } 7 = RustOutcome.panicked ∧
    write_block_guard { last_txg := 5, syncing_txg := none } = RustOutcome.panicked := by
  refine ⟨?_, rfl, rfl⟩
  unfold begin_txg
  norm_num

/-- C9 (code_bug evidence): the check_pending_flushes loop does not terminate
when the smallest pending flush is at least next_block: with pending_flushes =
[5] and next_block = 3 (reachable by initiate_flush(5) while the pending
object is at next_block 3) no amount of fuel completes the loop, because the
body removes nothing and has no break. -/
theorem C9_check_pending_flushes_diverges :
    ∀ fuel, check_pending_flushes_loop fuel [5] 3 false = none := by
  intro fuel
  induction fuel with
  | zero => rfl
  | succ n ih =>
    have hmin : ([5] : List Nat).min? = some 5 := rfl
    simp only [check_pending_flushes_loop, hmin]
    rw [if_neg (by omega)]
    exact ih

/-- C4: In every successful end_txg, for every combination of the data
dependent branches (storage log condense, reclaim callback ready, object size
log condense), the emitted operation order satisfies: all three object-based
log flushes precede the uberblock PUT, the uberblock PUT precedes the super
PUT, the super PUT precedes the spawn of objects_to_delete deletion, and
everything precedes the return that acknowledges the TXG. -/
theorem C4_end_txg_ordering (condenseStorage reclaimReady condenseSizes : Bool) :
    txgOrderOk (end_txg_events condenseStorage reclaimReady condenseSizes) := by
  cases condenseStorage <;> cases reclaimReady <;> cases condenseSizes <;> decide

/-- C6 counterexample: with one live entry and 36 chunks the code condenses
the storage object log (rewrites it from the ObjectBlockMap), although 36 is
below the threshold the claim states, 30 + 5 * ceil((1 + E) / E) = 40. -/
theorem C6_condense_counterexample :
    try_condense_object_log ENTRIES_PER_OBJECT 36 [(1, 0)] []
      = [StorageObjectLogEntry.Alloc 1 0] ∧
    ([] : List StorageObjectLogEntry) ≠ [StorageObjectLogEntry.Alloc 1 0] ∧
    36 < condense_threshold_spec ENTRIES_PER_OBJECT 1 := by
  refine ⟨?_, by simp, by decide⟩
  unfold try_condense_object_log
  rw [if_neg (by decide)]
  rfl

/-- C6 (amended): each of storage_object_log and object_size_log is condensed
by end_txg if and only if num_chunks reaches LOG_CONDENSE_MIN_CHUNKS +
LOG_CONDENSE_MULTIPLE * (live_entries + ENTRIES_PER_OBJECT) /
ENTRIES_PER_OBJECT with integer floor division (the multiplication binds
first); when condensing, the storage log is rewritten from the ObjectBlockMap
alone and the size log is rewritten from the object_sizes map followed by the
remainder captured before the clear; below the threshold nothing changes.
Stated parametrically in the entries-per-object constant. -/
theorem C6_condense_threshold (E nc : Nat) (map osz : List (Nat × Nat))
    (slog : List StorageObjectLogEntry) (rem zlog : List ObjectSizeLogEntry) :
    (condense_threshold E map.length ≤ nc →
      try_condense_object_log E nc map slog
        = map.map (fun p => StorageObjectLogEntry.Alloc p.1 p.2)) ∧
    (nc < condense_threshold E map.length →
      try_condense_object_log E nc map slog = slog) ∧
    (condense_threshold E osz.length ≤ nc →
      try_condense_object_sizes E nc osz rem zlog
        = (osz.map (fun p => ObjectSizeLogEntry.Exists p.1 0 p.2)) ++ rem) ∧
    (nc < condense_threshold E osz.length →
      try_condense_object_sizes E nc osz rem zlog = zlog) := by
  refine ⟨fun h => ?_, fun h => ?_, fun h => ?_, fun h => ?_⟩
  · unfold try_condense_object_log
    rw [if_neg (by omega)]
  · unfold try_condense_object_log
    rw [if_pos h]
  · unfold try_condense_object_sizes
    rw [if_neg (by omega)]
  · unfold try_condense_object_sizes
    rw [if_pos h]

theorem C6_condense_threshold_witness :
    try_condense_object_log 100 36 [(1, 0)] [] = [StorageObjectLogEntry.Alloc 1 0] ∧
    try_condense_object_log 100 34 [(1, 0)] [] = [] ∧
    try_condense_object_sizes 100 36 [(2, 7)] [ObjectSizeLogEntry.Freed 9] []
      = [ObjectSizeLogEntry.Exists 2 0 7, ObjectSizeLogEntry.Freed 9] ∧
    try_condense_object_sizes 100 34 [(2, 7)] [ObjectSizeLogEntry.Freed 9] [] = [] :=
  ⟨(C6_condense_threshold 100 36 [(1, 0)] [(1, 0)] [] [] []).1 (by decide),
   (C6_condense_threshold 100 34 [(1, 0)] [(1, 0)] [] [] []).2.1 (by decide),
   (C6_condense_threshold 100 36 [(2, 7)] [(2, 7)] [] [ObjectSizeLogEntry.Freed 9] []).2.2.1
     (by decide),
   (C6_condense_threshold 100 34 [(2, 7)] [(2, 7)] [] [ObjectSizeLogEntry.Freed 9] []).2.2.2
     (by decide)⟩

/-- C10: the overwrite slow path of write_block requires and asserts that the
fetched object was written this txg (min_txg = max_txg = syncing txg), that
block id is present in its map, and that the stored bytes have the same
length as the new data; conversely, under these preconditions no panic branch
is reachable and the object is re-PUT with only the bytes of block id
changed. -/
theorem C10_overwrite_preconditions (txg id : Nat) (data : Bytes) (phys : DataObjectPhys) :
    (∀ r, do_overwrite_task txg id data phys = some r →
      phys.min_txg = txg ∧ phys.max_txg = txg ∧
      ∃ old, lookupKey phys.blocks id = some old ∧ old.length = data.length) ∧
    (∀ old, phys.min_txg = txg → phys.max_txg = txg →
      lookupKey phys.blocks id = some old → old.length = data.length →
      do_overwrite_task txg id data phys
          = some { phys with blocks := insertKey (removeKey phys.blocks id) id data } ∧
        lookupKey (insertKey (removeKey phys.blocks id) id data) id = some data ∧
        ∀ k, k ≠ id →
          lookupKey (insertKey (removeKey phys.blocks id) id data) k
            = lookupKey phys.blocks k) := by
  constructor
  · intro r he
    unfold do_overwrite_task at he
    split at he
    case isFalse => simp at he
    case isTrue htx =>
      cases hlk : lookupKey phys.blocks id with
      | none => rw [hlk] at he; simp at he
      | some removed =>
        rw [hlk] at he
        dsimp only at he
        by_cases hlen : removed.length = data.length
        · exact ⟨htx.1, htx.2, removed, rfl, hlen⟩
        · rw [if_neg hlen] at he
          simp at he
  · intro old h1 h2 hlk hlen
    refine ⟨?_, lookupKey_insertKey_self _ _ _, ?_⟩
    · unfold do_overwrite_task
      rw [if_pos ⟨h1, h2⟩, hlk]
      dsimp only
      rw [if_pos hlen]
    · intro k hk
      rw [lookupKey_insertKey_ne _ _ hk, lookupKey_removeKey_ne hk]

theorem C10_overwrite_preconditions_witness :
    do_overwrite_task 3 5 [1, 2] exObjA
        = some { exObjA with blocks := insertKey (removeKey exObjA.blocks 5) 5 [1, 2] } ∧
      lookupKey (insertKey (removeKey exObjA.blocks 5) 5 [1, 2]) 5 = some [1, 2] ∧
      ∀ k, k ≠ 5 →
        lookupKey (insertKey (removeKey exObjA.blocks 5) 5 [1, 2]) k
          = lookupKey exObjA.blocks k :=
  (C10_overwrite_preconditions 3 5 [1, 2] exObjA).2 [8, 9] rfl rfl rfl rfl

theorem removeKey_eq_filter (m : BlockMap) (k : Nat) :
    removeKey m k = m.filter (fun p => decide (p.1 ≠ k)) := by
  induction m with
  | nil => rfl
  | cons q t ih =>
    obtain ⟨k', v⟩ := q
    by_cases hk : k' = k
    · subst hk
      simp [removeKey, List.filter, ih]
    · simp [removeKey, hk, List.filter, ih]

theorem lookupKey_isSome_of_mem {m : BlockMap} {p : Nat × Bytes} (h : p ∈ m) :
    lookupKey m p.1 ≠ none := by
  induction m with
  | nil => simp at h
  | cons q t ih =>
    obtain ⟨k', v⟩ := q
    rcases List.mem_cons.1 h with h1 | h1
    · subst h1
      simp [lookupKey]
    · by_cases hk : k' = p.1
      · simp [lookupKey, hk]
      · simpa [lookupKey, hk] using ih h1

theorem removePendingWrites_spec :
    ∀ (l : List Nat) (m : BlockMap), l.Nodup →
    (∀ id ∈ l, lookupKey m id ≠ none) →
    removePendingWrites m l = some (m.filter (fun p => decide (p.1 ∉ l))) := by
  intro l
  induction l with
  | nil =>
    intro m _ _
    simp [removePendingWrites]
  | cons id rest ih =>
    intro m hnd hpres
    have hid : lookupKey m id ≠ none := hpres id (List.mem_cons_self _ _)
    cases hlk : lookupKey m id with
    | none => exact absurd hlk hid
    | some v =>
      simp only [removePendingWrites, hlk]
      have hnd' := (List.nodup_cons.1 hnd)
      have hpres' : ∀ i ∈ rest, lookupKey (removeKey m id) i ≠ none := by
        intro i hi
        have hne : i ≠ id := fun hc => hnd'.1 (hc ▸ hi)
        rw [lookupKey_removeKey_ne hne]
        exact hpres i (List.mem_cons_of_mem _ hi)
      rw [ih (removeKey m id) hnd'.2 hpres']
      congr 1
      rw [removeKey_eq_filter, List.filter_filter]
      apply List.filter_congr
      intro p _
      by_cases h1 : p.1 = id
      · simp [h1]
      · by_cases h2 : p.1 ∈ rest <;> simp [h1, h2]

/-- C3: whenever the merge loop of resume_complete sees that the
lowest-ObjectID recovered object has min_block at most the smallest pending
unordered write (or no pending writes remain), that object is adopted: the
stats gain the object (objects_count, blocks_bytes, blocks_count), the
ObjectBlockMap gains (object, min_block), the storage and size logs gain the
Alloc and Exists entries, every pending write with id below the object
next_block is removed from the set and the map and its waiter signaled with
success, the pending object becomes NotPending(next_block), and the object
leaves the recovered map.  The hypotheses are the assertions of
account_new_object and recover_objects plus the invariant that ordered_writes
mirrors the keys of pending_unordered_writes. -/
theorem C3_resume_adopt_object (guid txg : Nat) (st : ResumeState)
    (robj : DataObjectPhys) (rest : List DataObjectPhys)
    (hrec : st.recovered_objects = robj :: rest)
    (hw : ∀ w ∈ st.ordered_writes.head?, robj.min_block ≤ w)
    (hguid : robj.guid = guid) (hmin : robj.min_txg = txg) (hmax : robj.max_txg = txg)
    (hobj : st.block_to_obj.last_obj + 1 ≤ robj.object)
    (hnp : st.pending_object.is_pending = false)
    (how : st.ordered_writes.Nodup)
    (hfwd : ∀ id ∈ st.ordered_writes, lookupKey st.pending_unordered_writes id ≠ none)
    (hbwd : ∀ p ∈ st.pending_unordered_writes, p.1 ∈ st.ordered_writes) :
    resume_adopt guid txg st = some
      { st with
        recovered_objects := rest
        ordered_writes := st.ordered_writes.filter (fun w => decide (robj.next_block ≤ w))
        pending_unordered_writes :=
          st.pending_unordered_writes.filter (fun p => decide (robj.next_block ≤ p.1))
        stats := { st.stats with
          objects_count := st.stats.objects_count + 1
          blocks_bytes := st.stats.blocks_bytes + robj.blocks_size
          blocks_count := st.stats.blocks_count + robj.blocks.length }
        block_to_obj := st.block_to_obj.insert robj.object robj.min_block
        storage_object_log := st.storage_object_log
          ++ [StorageObjectLogEntry.Alloc robj.object robj.min_block]
        object_size_log := st.object_size_log
          ++ [ObjectSizeLogEntry.Exists robj.object robj.blocks.length robj.blocks_size]
        signaled := st.signaled
          ++ st.ordered_writes.filter (fun w => decide (w < robj.next_block))
        pending_object := PendingObjectState.NotPending robj.next_block } := by
  have hcond : adopt_cond st.ordered_writes robj.min_block = true := by
    unfold adopt_cond
    cases hh : st.ordered_writes.head? with
    | none => rfl
    | some w =>
      have := hw w (by simp [hh])
      simpa using this
  have hobs : (st.ordered_writes.filter (fun w => decide (w < robj.next_block))).Nodup :=
    how.filter _
  have hpres : ∀ id ∈ st.ordered_writes.filter (fun w => decide (w < robj.next_block)),
      lookupKey st.pending_unordered_writes id ≠ none := by
    intro id hid
    exact hfwd id (List.mem_of_mem_filter hid)
  have hrm := removePendingWrites_spec
    (st.ordered_writes.filter (fun w => decide (w < robj.next_block)))
    st.pending_unordered_writes hobs hpres
  have hfeq : st.pending_unordered_writes.filter
        (fun p => decide (p.1 ∉ st.ordered_writes.filter
          (fun w => decide (w < robj.next_block))))
      = st.pending_unordered_writes.filter (fun p => decide (robj.next_block ≤ p.1)) := by
    apply List.filter_congr
    intro p hp
    have hpo : p.1 ∈ st.ordered_writes := hbwd p hp
    rw [decide_eq_decide]
    simp only [List.mem_filter, decide_eq_true_eq]
    constructor
    · intro h
      by_contra hc
      exact h ⟨hpo, by omega⟩
    · intro h hc
      omega
  unfold resume_adopt
  rw [hrec]
  dsimp only
  rw [if_pos hcond]
  unfold account_new_object
  rw [if_pos ⟨hguid, hmin, hmax, hobj⟩]
  dsimp only
  rw [hrm, hfeq]
  dsimp only
  rw [if_neg (by simp [hnp])]

theorem C3_resume_adopt_object_witness :
    resume_adopt 1 3 exResumeState = some
      { exResumeState with
        recovered_objects := []
        ordered_writes := exResumeState.ordered_writes.filter
          (fun w => decide (exObjA.next_block ≤ w))
        pending_unordered_writes := exResumeState.pending_unordered_writes.filter
          (fun p => decide (exObjA.next_block ≤ p.1))
        stats := { exResumeState.stats with
          objects_count := exResumeState.stats.objects_count + 1
          blocks_bytes := exResumeState.stats.blocks_bytes + exObjA.blocks_size
          blocks_count := exResumeState.stats.blocks_count + exObjA.blocks.length }
        block_to_obj := exResumeState.block_to_obj.insert exObjA.object exObjA.min_block
        storage_object_log := exResumeState.storage_object_log
          ++ [StorageObjectLogEntry.Alloc exObjA.object exObjA.min_block]
        object_size_log := exResumeState.object_size_log
          ++ [ObjectSizeLogEntry.Exists exObjA.object exObjA.blocks.length exObjA.blocks_size]
        signaled := exResumeState.signaled
          ++ exResumeState.ordered_writes.filter (fun w => decide (w < exObjA.next_block))
        pending_object := PendingObjectState.NotPending exObjA.next_block } :=
  C3_resume_adopt_object 1 3 exResumeState exObjA [] rfl
    (by
      intro w hw
      have hw6 : 6 = w := by simpa [exResumeState] using hw
      subst hw6
      decide)
    rfl rfl rfl (by decide) rfl (by decide) (by decide) (by decide)

theorem appendAll_pending {T : Type} (es : List T) :
    ∀ log : BlockBasedLog T,
      log.appendAll es = { log with pending_entries := log.pending_entries ++ es } := by
  induction es with
  | nil =>
    intro log
    simp [BlockBasedLog.appendAll]
  | cons e es ih =>
    intro log
    show (log.append e).appendAll es = _
    rw [ih (log.append e)]
    simp [BlockBasedLog.append]

theorem chunksOf_flatten {T : Type} (n : Nat) (l : List T) :
    (chunksOf (n + 1) l).flatten = l := by
  have H : ∀ m, ∀ l : List T, l.length = m → (chunksOf (n + 1) l).flatten = l := by
    intro m
    induction m using Nat.strong_induction_on with
    | _ m ih =>
      intro l hm
      cases l with
      | nil => simp [chunksOf]
      | cons a t =>
        simp only [chunksOf, List.flatten_cons]
        have hlt : (t.drop n).length < m := by
          subst hm
          simp only [List.length_drop, List.length_cons]
          omega
        rw [ih _ hlt (t.drop n) rfl, ← List.drop_succ_cons (a := a) (l := t) (n := n)]
        exact List.take_append_drop (n + 1) (a :: t)
  exact H l.length l rfl

theorem chunksOf_ne_nil {T : Type} (n : Nat) (l : List T) :
    ∀ c ∈ chunksOf (n + 1) l, c ≠ [] := by
  have H : ∀ m, ∀ l : List T, l.length = m → ∀ c ∈ chunksOf (n + 1) l, c ≠ [] := by
    intro m
    induction m using Nat.strong_induction_on with
    | _ m ih =>
      intro l hm
      cases l with
      | nil => simp [chunksOf]
      | cons a t =>
        simp only [chunksOf]
        intro c hc
        rcases List.mem_cons.1 hc with h1 | h1
        · subst h1
          simp [List.take_succ_cons]
        · have hlt : (t.drop n).length < m := by
            subst hm
            simp only [List.length_drop, List.length_cons]
            omega
          exact ih _ hlt (t.drop n) rfl c h1
  exact H l.length l rfl

theorem binary_search_go_ok {keys : List Nat} {key : Nat} :
    ∀ fuel left right i, right ≤ keys.length →
    binary_search_go keys key fuel left right = Except.ok i →
    i < keys.length ∧ keys.getD i 0 = key := by
  intro fuel
  induction fuel with
  | zero => intro l r i _ h; simp [binary_search_go] at h
  | succ fuel ih =>
    intro l r i hr h
    simp only [binary_search_go] at h
    by_cases hlr : l < r
    · rw [if_pos hlr] at h
      by_cases h1 : keys.getD ((l + r) / 2) 0 < key
      · rw [if_pos h1] at h
        exact ih _ _ _ hr h
      · rw [if_neg h1] at h
        by_cases h2 : key < keys.getD ((l + r) / 2) 0
        · rw [if_pos h2] at h
          exact ih _ _ _ (by omega) h
        · rw [if_neg h2] at h
          have hmid : (l + r) / 2 = i := Except.ok.inj h
          constructor
          · omega
          · rw [← hmid]
            omega
    · rw [if_neg hlr] at h
      simp at h

theorem binary_search_go_err {keys : List Nat} {key : Nat} (hs : StrictSortedKeys keys) :
    ∀ fuel left right i, left ≤ right → right ≤ keys.length → right - left < fuel →
    (∀ j, j < left → keys.getD j 0 < key) →
    (∀ j, right ≤ j → j < keys.length → key < keys.getD j 0) →
    binary_search_go keys key fuel left right = Except.error i →
    i ≤ keys.length ∧ (∀ j, j < i → keys.getD j 0 < key) ∧
      (∀ j, i ≤ j → j < keys.length → key < keys.getD j 0) := by
  intro fuel
  induction fuel with
  | zero => intro l r i hlr hr hf _ _ _; omega
  | succ fuel ih =>
    intro l r i hlr hr hf hlo hhi h
    simp only [binary_search_go] at h
    by_cases hlr2 : l < r
    · rw [if_pos hlr2] at h
      have hml : l ≤ (l + r) / 2 := by omega
      have hmr : (l + r) / 2 < r := by omega
      by_cases h1 : keys.getD ((l + r) / 2) 0 < key
      · rw [if_pos h1] at h
        refine ih ((l + r) / 2 + 1) r i (by omega) hr (by omega) ?_ hhi h
        intro j hj
        rcases Nat.lt_or_ge j l with hc | hc
        · exact hlo j hc
        · rcases Nat.lt_or_eq_of_le (by omega : j ≤ (l + r) / 2) with hc2 | hc2
          · exact lt_trans (hs j ((l + r) / 2) hc2 (by omega)) h1
          · rw [hc2]
            exact h1
      · rw [if_neg h1] at h
        by_cases h2 : key < keys.getD ((l + r) / 2) 0
        · rw [if_pos h2] at h
          refine ih l ((l + r) / 2) i hml (by omega) (by omega) hlo ?_ h
          intro j hj hjlen
          rcases Nat.lt_or_eq_of_le hj with hc2 | hc2
          · exact lt_trans h2 (hs ((l + r) / 2) j hc2 hjlen)
          · rw [← hc2]
            exact h2
        · rw [if_neg h2] at h
          simp at h
    · rw [if_neg hlr2] at h
      have hi : l = i := Except.error.inj h
      subst hi
      refine ⟨by omega, hlo, ?_⟩
      intro j hj hjl
      exact hhi j (by omega) hjl

theorem binary_search_ok {keys : List Nat} {key i : Nat}
    (h : binary_search_by_key keys key = Except.ok i) :
    i < keys.length ∧ keys.getD i 0 = key :=
  binary_search_go_ok (keys.length + 1) 0 keys.length i le_rfl h

theorem binary_search_err {keys : List Nat} {key i : Nat} (hs : StrictSortedKeys keys)
    (h : binary_search_by_key keys key = Except.error i) :
    i ≤ keys.length ∧ (∀ j, j < i → keys.getD j 0 < key) ∧
      (∀ j, i ≤ j → j < keys.length → key < keys.getD j 0) :=
  binary_search_go_err hs (keys.length + 1) 0 keys.length i (Nat.zero_le _) le_rfl
    (by omega) (by intro j hj; omega) (by intro j hj hjl; omega) h

theorem strictSorted_unique {keys : List Nat} (hs : StrictSortedKeys keys) {i j : Nat}
    (hi : i < keys.length) (hj : j < keys.length)
    (hkey : keys.getD i 0 = keys.getD j 0) : i = j := by
  rcases Nat.lt_trichotomy i j with h | h | h
  · have := hs i j h hj
    omega
  · exact h
  · have := hs j i h hi
    omega

theorem pairwise_map_strictSorted {T : Type} {f : T → Nat} {es : List T}
    (h : es.Pairwise (fun a b => f a < f b)) : StrictSortedKeys (es.map f) := by
  intro i j hij hj
  rw [List.length_map] at hj
  have hi : i < es.length := lt_trans hij hj
  rw [List.getD_eq_getElem _ _ (by rw [List.length_map]; exact hi),
      List.getD_eq_getElem _ _ (by rw [List.length_map]; exact hj)]
  simp only [List.getElem_map]
  exact List.pairwise_iff_getElem.1 h i j hi hj hij

theorem chunk_search_spec {T : Type} (f : T → Nat) (entries : List T) (key : Nat)
    (hw : entries.Pairwise (fun a b => f a < f b)) :
    (∀ e, chunk_search entries key f = some e → e ∈ entries ∧ f e = key) ∧
    (∀ e₀ ∈ entries, f e₀ = key → chunk_search entries key f = some e₀) := by
  have hsk : StrictSortedKeys (entries.map f) := pairwise_map_strictSorted hw
  constructor
  · intro e he
    unfold chunk_search at he
    cases hb : binary_search_by_key (entries.map f) key with
    | ok j =>
      rw [hb] at he
      dsimp only at he
      obtain ⟨hjl, hkey⟩ := binary_search_ok hb
      rw [List.length_map] at hjl
      rw [List.get?_eq_get hjl] at he
      have he2 : entries.get ⟨j, hjl⟩ = e := Option.some.inj he
      have hdk : (entries.map f).getD j 0 = f (entries.get ⟨j, hjl⟩) := by
        rw [List.getD_eq_getElem _ _ (by rw [List.length_map]; exact hjl)]
        simp [List.getElem_map, List.get_eq_getElem]
      constructor
      · rw [← he2]
        exact List.get_mem _ _ _
      · rw [← he2, ← hdk]
        exact hkey
    | error j =>
      rw [hb] at he
      simp at he
  · intro e₀ hmem hkey
    obtain ⟨⟨p, hp⟩, hpe⟩ := List.mem_iff_get.1 hmem
    have hkeyp : (entries.map f).getD p 0 = key := by
      rw [List.getD_eq_getElem _ _ (by rw [List.length_map]; exact hp)]
      rw [List.getElem_map]
      rw [← List.get_eq_getElem entries ⟨p, hp⟩, hpe]
      exact hkey
    unfold chunk_search
    cases hb : binary_search_by_key (entries.map f) key with
    | error j =>
      exfalso
      obtain ⟨_, hlo, hhi⟩ := binary_search_err hsk hb
      rcases Nat.lt_or_ge p j with hc | hc
      · have := hlo p hc
        omega
      · have := hhi p hc (by rw [List.length_map]; exact hp)
        omega
    | ok j =>
      obtain ⟨hjl, hkeyj⟩ := binary_search_ok hb
      have hj : j = p :=
        strictSorted_unique hsk hjl (by rw [List.length_map]; exact hp)
          (hkeyj.trans hkeyp.symm)
      subst hj
      dsimp only
      rw [List.get?_eq_get hp, hpe]

theorem chunkFirstKeys_getD {T : Type} (f : T → Nat) (chunks : List (List T)) {i : Nat}
    (hi : i < chunks.length) :
    (chunkFirstKeys f chunks).getD i 0 = ((chunks.getD i []).map f).headD 0 := by
  unfold chunkFirstKeys
  rw [List.getD_eq_getElem _ _ (by rw [List.length_map]; exact hi),
      List.getD_eq_getElem _ _ hi]
  rw [List.getElem_map]

theorem getD_mem_of_lt {T : Type} (chunks : List (List T)) {i : Nat}
    (hi : i < chunks.length) : chunks.getD i [] ∈ chunks := by
  rw [List.getD_eq_getElem _ _ hi]
  exact List.getElem_mem hi

theorem lookup_by_key_chunks {T : Type} (f : T → Nat) (key : Nat)
    (chunks : List (List T)) (pend : List T) (n : Nat)
    (hne : ∀ c ∈ chunks, c ≠ [])
    (hp : chunks.flatten.Pairwise (fun a b => f a < f b)) :
    BlockBasedLog.lookup_by_key ⟨chunks, pend, n⟩ key f
      = chunks.flatten.find? (fun e => decide (f e = key)) := by
  obtain ⟨hwithin, hacross⟩ := List.pairwise_flatten.1 hp
  have hlen : (chunkFirstKeys f chunks).length = chunks.length := by
    unfold chunkFirstKeys
    rw [List.length_map]
  have hwI : ∀ i, i < chunks.length →
      (chunks.getD i []).Pairwise (fun a b => f a < f b) :=
    fun i hi => hwithin _ (getD_mem_of_lt chunks hi)
  have hsk : StrictSortedKeys (chunkFirstKeys f chunks) := by
    intro i j hij hj
    rw [hlen] at hj
    have hi : i < chunks.length := lt_trans hij hj
    obtain ⟨a, ta, ha⟩ := List.exists_cons_of_ne_nil (hne _ (getD_mem_of_lt chunks hi))
    obtain ⟨b, tb, hb⟩ := List.exists_cons_of_ne_nil (hne _ (getD_mem_of_lt chunks hj))
    rw [chunkFirstKeys_getD f chunks hi, chunkFirstKeys_getD f chunks hj, ha, hb]
    simp only [List.map_cons, List.headD_cons]
    have hrel := List.pairwise_iff_getElem.1 hacross i j hi hj hij
    apply hrel
    · rw [← List.getD_eq_getElem chunks [] hi, ha]
      exact List.mem_cons_self _ _
    · rw [← List.getD_eq_getElem chunks [] hj, hb]
      exact List.mem_cons_self _ _
  have hheadle : ∀ c, ∀ hc : c < chunks.length, ∀ e₀ ∈ chunks.getD c [],
      (chunkFirstKeys f chunks).getD c 0 ≤ f e₀ := by
    intro c hc e₀ hin
    obtain ⟨a, ta, ha⟩ := List.exists_cons_of_ne_nil (hne _ (getD_mem_of_lt chunks hc))
    rw [chunkFirstKeys_getD f chunks hc, ha]
    simp only [List.map_cons, List.headD_cons]
    rw [ha] at hin
    rcases List.mem_cons.1 hin with h1 | h1
    · rw [h1]
    · have hpw := hwI c hc
      rw [ha] at hpw
      have := (List.pairwise_cons.1 hpw).1 e₀ h1
      omega
  have hlater : ∀ c, ∀ hc : c < chunks.length, ∀ e₀ ∈ chunks.getD c [],
      ∀ j, c < j → j < chunks.length →
      f e₀ < (chunkFirstKeys f chunks).getD j 0 := by
    intro c hc e₀ hin j hcj hj
    obtain ⟨b, tb, hb⟩ := List.exists_cons_of_ne_nil (hne _ (getD_mem_of_lt chunks hj))
    rw [chunkFirstKeys_getD f chunks hj, hb]
    simp only [List.map_cons, List.headD_cons]
    have hrel := List.pairwise_iff_getElem.1 hacross c j hc hj hcj
    apply hrel
    · rw [← List.getD_eq_getElem chunks [] hc]
      exact hin
    · rw [← List.getD_eq_getElem chunks [] hj, hb]
      exact List.mem_cons_self _ _
  have hearlier : ∀ c, ∀ hc : c < chunks.length, ∀ e₀ ∈ chunks.getD c [],
      ∀ j, j < c → (chunkFirstKeys f chunks).getD j 0 < f e₀ := by
    intro c hc e₀ hin j hjc
    have hj : j < chunks.length := lt_trans hjc hc
    obtain ⟨b, tb, hb⟩ := List.exists_cons_of_ne_nil (hne _ (getD_mem_of_lt chunks hj))
    rw [chunkFirstKeys_getD f chunks hj, hb]
    simp only [List.map_cons, List.headD_cons]
    have hrel := List.pairwise_iff_getElem.1 hacross j c hj hc hjc
    apply hrel
    · rw [← List.getD_eq_getElem chunks [] hj, hb]
      exact List.mem_cons_self _ _
    · rw [← List.getD_eq_getElem chunks [] hc]
      exact hin
  cases hf : chunks.flatten.find? (fun e => decide (f e = key)) with
  | some e₀ =>
    have he₀mem : e₀ ∈ chunks.flatten := List.mem_of_find?_eq_some hf
    have he₀key : f e₀ = key := by
      have := List.find?_some hf
      simpa using this
    obtain ⟨ch, hch, hin⟩ := List.mem_flatten.1 he₀mem
    obtain ⟨⟨c, hc⟩, hceq⟩ := List.mem_iff_get.1 hch
    have hcd : chunks.getD c [] = ch := by
      rw [List.getD_eq_getElem _ _ hc, ← List.get_eq_getElem chunks ⟨c, hc⟩]
      exact hceq
    have hin' : e₀ ∈ chunks.getD c [] := by
      rw [hcd]
      exact hin
    have hF2 : (chunkFirstKeys f chunks).getD c 0 ≤ key := by
      rw [← he₀key]
      exact hheadle c hc e₀ hin'
    have hF3 : ∀ j, c < j → j < chunks.length →
        key < (chunkFirstKeys f chunks).getD j 0 := by
      intro j h1 h2
      rw [← he₀key]
      exact hlater c hc e₀ hin' j h1 h2
    have hF4 : ∀ j, j < c → (chunkFirstKeys f chunks).getD j 0 < key := by
      intro j h1
      rw [← he₀key]
      exact hearlier c hc e₀ hin' j h1
    have hcs : chunk_search (chunks.getD c []) key f = some e₀ :=
      (chunk_search_spec f _ key (hwI c hc)).2 e₀ hin' he₀key
    unfold BlockBasedLog.lookup_by_key
    dsimp only
    cases houter : binary_search_by_key (chunkFirstKeys f chunks) key with
    | ok i =>
      obtain ⟨hil, hik⟩ := binary_search_ok houter
      rw [hlen] at hil
      have hic : i = c := by
        rcases Nat.lt_trichotomy i c with h1 | h1 | h1
        · have := hF4 i h1
          omega
        · exact h1
        · have := hF3 i h1 hil
          omega
      dsimp only
      rw [hic]
      exact hcs
    | error i =>
      obtain ⟨hib, hlo, hhi⟩ := binary_search_err hsk houter
      rw [hlen] at hib
      have hci2 : c < i := by
        by_contra hcon
        push_neg at hcon
        have := hhi c hcon (by rw [hlen]; exact hc)
        omega
      have hic : i = c + 1 := by
        by_contra hcon
        have h1 : c + 1 < i := by omega
        have h2 := hlo (c + 1) h1
        have h3 := hF3 (c + 1) (by omega) (by omega)
        omega
      dsimp only
      rw [if_neg (by omega), hic]
      simpa using hcs
  | none =>
    have hnone : ∀ e ∈ chunks.flatten, ¬ (f e = key) := by
      intro e he
      have := List.find?_eq_none.1 hf e he
      simpa using this
    unfold BlockBasedLog.lookup_by_key
    dsimp only
    cases houter : binary_search_by_key (chunkFirstKeys f chunks) key with
    | ok i =>
      exfalso
      obtain ⟨hil, hik⟩ := binary_search_ok houter
      rw [hlen] at hil
      obtain ⟨a, ta, ha⟩ := List.exists_cons_of_ne_nil (hne _ (getD_mem_of_lt chunks hil))
      have hfa : (chunkFirstKeys f chunks).getD i 0 = f a := by
        rw [chunkFirstKeys_getD f chunks hil, ha]
        simp
      have hamem : a ∈ chunks.flatten :=
        List.mem_flatten.2 ⟨_, getD_mem_of_lt chunks hil, by rw [ha]; exact List.mem_cons_self _ _⟩
      exact hnone a hamem (by omega)
    | error i =>
      dsimp only
      by_cases hi0 : i = 0
      · rw [if_pos hi0]
      · rw [if_neg hi0]
        obtain ⟨hib, _, _⟩ := binary_search_err hsk houter
        rw [hlen] at hib
        have hi1 : i - 1 < chunks.length := by omega
        cases hcs : chunk_search (chunks.getD (i - 1) []) key f with
        | none => rfl
        | some e =>
          exfalso
          obtain ⟨hmem, hkey⟩ := (chunk_search_spec f _ key (hwI _ hi1)).1 e hcs
          have hemem : e ∈ chunks.flatten :=
            List.mem_flatten.2 ⟨_, getD_mem_of_lt chunks hi1, hmem⟩
          exact hnone e hemem hkey

/-- C2: appending N entries in strictly ascending order of the projection f
to a fresh BlockBasedLog and flushing gives a log whose iter yields exactly
those entries in order (the num_entries consistency assert passes), and whose
lookup_by_key returns, for every key, the unique entry with that projected
key when one exists and none otherwise (in particular none when the key
precedes the first chunk first entry, the insertion-point-zero branch). -/
theorem C2_block_based_log_roundtrip {T : Type} (es : List T) (f : T → Nat) (key : Nat)
    (hs : es.Pairwise (fun a b => f a < f b)) :
    BlockBasedLog.iter ((BlockBasedLog.empty.appendAll es).flush) = some es ∧
    BlockBasedLog.lookup_by_key ((BlockBasedLog.empty.appendAll es).flush) key f
      = es.find? (fun e => decide (f e = key)) := by
  have hlog : (BlockBasedLog.empty.appendAll es).flush
      = ⟨chunksOf ENTRIES_PER_CHUNK es, [], es.length⟩ := by
    rw [appendAll_pending]
    simp [BlockBasedLog.empty, BlockBasedLog.flush]
  have hflat : (chunksOf ENTRIES_PER_CHUNK es).flatten = es := chunksOf_flatten 99 es
  constructor
  · rw [hlog]
    unfold BlockBasedLog.iter
    simp [hflat]
  · rw [hlog]
    have hnonnil : ∀ c ∈ chunksOf ENTRIES_PER_CHUNK es, c ≠ [] := chunksOf_ne_nil 99 es
    have hpw : (chunksOf ENTRIES_PER_CHUNK es).flatten.Pairwise (fun a b => f a < f b) := by
      rw [hflat]
      exact hs
    rw [lookup_by_key_chunks f key (chunksOf ENTRIES_PER_CHUNK es) [] es.length hnonnil hpw]
    rw [hflat]

theorem C2_block_based_log_roundtrip_witness :
    BlockBasedLog.iter ((BlockBasedLog.empty.appendAll exLogEntries).flush)
        = some exLogEntries ∧
    BlockBasedLog.lookup_by_key ((BlockBasedLog.empty.appendAll exLogEntries).flush)
        3 Prod.fst = some (3, 30) ∧
    BlockBasedLog.lookup_by_key ((BlockBasedLog.empty.appendAll exLogEntries).flush)
        4 Prod.fst = none ∧
    BlockBasedLog.lookup_by_key ((BlockBasedLog.empty.appendAll exLogEntries).flush)
        0 Prod.fst = none :=
  ⟨(C2_block_based_log_roundtrip exLogEntries Prod.fst 3 (by decide)).1,
   ((C2_block_based_log_roundtrip exLogEntries Prod.fst 3 (by decide)).2).trans (by decide),
   ((C2_block_based_log_roundtrip exLogEntries Prod.fst 4 (by decide)).2).trans (by decide),
   ((C2_block_based_log_roundtrip exLogEntries Prod.fst 0 (by decide)).2).trans (by decide)⟩
